import Mathlib

/-!
Verification of `scripts/update_cargo_toml.py`.

The script walks the `crates/` directory tree, parses every `Cargo.toml`
manifest, removes dependency entries naming one of the merged legacy crates,
inserts a single consolidated `paws_common` dependency in their place, and
writes the manifest back only when something changed.

The embedding below models parsed TOML documents as association lists with
Python-dict semantics (insertion order preserved, assignment overwrites in
place, deletion removes the entry), and models the script's I/O — `toml.load`
failures, write failures, and the `os.walk` traversal — explicitly, so that
the logging and error-isolation behavior of `process_file` and `main` can be
stated and proved.
-/

namespace UpdateCargoToml

/-- A TOML value as produced by `toml.load`: strings, integers, booleans,
nested tables and arrays.  The script only ever inspects table keys and
builds the one table `{"workspace": True}`; values are otherwise opaque. -/
inductive Value where
  | str (s : String)
  | int (n : Int)
  | bool (b : Bool)
  | table (entries : List (String × Value))
  | arr (elems : List Value)

/-- A parsed TOML table: a finite mapping from keys to values, modelled as an
association list in insertion order (Python `dict` semantics). -/
abbrev Table := List (String × Value)

/-- `d[k]` lookup: the value at the first entry with key `k`, if any. -/
def lookupVal : Table → String → Option Value
  | [], _ => none
  | (k', v) :: rest, k => if k' = k then some v else lookupVal rest k

/-- Python `k in d`: key membership test. -/
def hasKey (d : Table) (k : String) : Bool :=
  (lookupVal d k).isSome

/-- Python `del d[k]`: remove the entry with key `k`. -/
def dictDel : Table → String → Table
  | [], _ => []
  | (k', v) :: rest, k =>
      if k' = k then dictDel rest k else (k', v) :: dictDel rest k

/-- Python `d[k] = v`: overwrite the existing entry for `k` in place,
or append a new entry at the end if `k` is absent. -/
def dictSet : Table → String → Value → Table
  | [], k, v => [(k, v)]
  | (k', v') :: rest, k, v =>
      if k' = k then (k, v) :: rest else (k', v') :: dictSet rest k v

/-- The number of entries of `d` carrying key `k`. -/
def countKey (d : Table) (k : String) : Nat :=
  (d.filter (fun p => p.1 = k)).length

/-- The keys of a table are pairwise distinct — every table produced by
parsing a TOML file into a Python `dict` satisfies this. -/
def keysNodup (d : Table) : Prop :=
  (d.map Prod.fst).Nodup

/-- The Legacy Package Set: the fixed list `MERGED_CRATES` from the script. -/
def MERGED_CRATES : List String :=
  ["paws_spinner", "paws_display", "paws_select", "paws_stream",
   "paws_walker", "paws_tracker", "paws_json_repair", "paws_template",
   "paws_snaps", "paws_test_kit", "paws_fs"]

/-- The fixed replacement entry `{"workspace": True}` assigned to
`deps["paws_common"]`. -/
def replacementEntry : Value :=
  .table [("workspace", .bool true)]

/-- The `to_remove` list built by `update_deps`: the crates of
`MERGED_CRATES`, in order, that occur as keys of `deps`. -/
def legacyKeys (deps : Table) : List String :=
  MERGED_CRATES.filter (fun crate => hasKey deps crate)

/-- `update_deps(deps)` on a present table.  Mirrors the script: an empty
(falsy) table is a no-op; otherwise every crate of `MERGED_CRATES` found in
`deps` is collected into `to_remove` and deleted, and if any was found the
consolidated `paws_common` entry is assigned.  Returns the updated table
and the `modified` flag. -/
def update_deps (deps : Table) : Table × Bool :=
  if deps.isEmpty then (deps, false)
  else
    let to_remove := legacyKeys deps
    let deps1 := to_remove.foldl dictDel deps
    if to_remove.isEmpty then (deps1, false)
    else (dictSet deps1 "paws_common" replacementEntry, true)

/-- `update_deps` on a possibly-absent table: Python's `if not deps` treats
`None` like the empty dict, returning `False` without touching anything. -/
def update_deps_opt : Option Table → Option Table × Bool
  | none => (none, false)
  | some d => (some (update_deps d).1, (update_deps d).2)

/-- The outcome of `toml.load` on a manifest file: either the parsed
top-level document (a table), or a raised exception carrying a message.
Read errors (missing file, permission denied) surface through the same
path since `open` and `toml.load` sit inside the same `try` block. -/
inductive ParseResult where
  | ok (doc : Table)
  | err (msg : String)

/-- Outcome of one `if key in data: update_deps(data[key])` step: the
document after the in-place mutation together with the returned flag, or a
raised exception. -/
inductive StepResult where
  | ok (doc : Table) (modified : Bool)
  | err (msg : String)

/-- One `if key in data: if update_deps(data[key]): ...` step of
`process_file`.  When the key is present with a table value, `update_deps`
mutates that table in place, which the functional model renders as writing
the updated table back under the same key.  A present non-table value makes
the Python body raise (e.g. `in` or `del` on a non-dict), which the
enclosing handler catches; absence is a no-op. -/
def applyDeps (data : Table) (key : String) : StepResult :=
  match lookupVal data key with
  | some (.table t) => .ok (dictSet data key (.table (update_deps t).1)) (update_deps t).2
  | some _ => .err "TypeError"
  | none => .ok data false

/-- Whether a TOML value is a table. -/
def valIsTable : Value → Bool
  | .table _ => true
  | _ => false

/-- The `modified` flag `update_deps` would report for a value (false for
non-tables). -/
def valModified : Value → Bool
  | .table t => (update_deps t).2
  | _ => false

/-- The document after the in-place rewrite of the table under `key`, when
that entry is a table; otherwise the document itself. -/
def rewriteStep (data : Table) (key : String) : Table :=
  match lookupVal data key with
  | some (.table t) => dictSet data key (.table (update_deps t).1)
  | _ => data

/-- The document `process_file` serializes back: both dependency tables
rewritten, everything else untouched. -/
def rewriteDoc (data : Table) : Table :=
  rewriteStep (rewriteStep data "dependencies") "dev-dependencies"

/-- The `Updating {path}` notice printed before the write-back. -/
def updLine (path : String) : String :=
  "Updating " ++ path

/-- The `Error processing {path}: {e}` line printed by the handler. -/
def errLine (path e : String) : String :=
  "Error processing " ++ path ++ ": " ++ e

/-- The `try` body of `process_file`: parse, rewrite `dependencies` and
`dev-dependencies`, and if either changed print the notice and write the
document back.  `writeOk` models whether reopening `path` for writing
succeeds; a failed write raises after the notice was already printed.
Returns the content written back to disk (`none` when no write happened)
or the raised exception, together with the console lines printed so far. -/
def process_file_body (path : String) (pr : ParseResult) (writeOk : Bool) :
    Except String (Option Table) × List String :=
  match pr with
  | .err e => (.error e, [])
  | .ok data =>
    match applyDeps data "dependencies" with
    | .err e => (.error e, [])
    | .ok data1 m1 =>
      match applyDeps data1 "dev-dependencies" with
      | .err e => (.error e, [])
      | .ok data2 m2 =>
        if m1 || m2 then
          if writeOk then (.ok (some data2), [updLine path])
          else (.error "write failed", [updLine path])
        else (.ok none, [])

/-- `process_file(path)`: the body wrapped in `except Exception as e`, which
catches every raised exception and prints the error line after whatever the
body already printed.  The first component is the content now on disk if the
file was overwritten, `none` if the on-disk content is unchanged. -/
def process_file (path : String) (pr : ParseResult) (writeOk : Bool) :
    Option Table × List String :=
  match process_file_body path pr writeOk with
  | (.ok written, out) => (written, out)
  | (.error e, out) => (none, out ++ [errLine path e])

/-- The `modified` flag `update_deps` reports for the table stored under
`key` in `data` (false when the key is absent or not a table). -/
def tableModified (data : Table) (key : String) : Bool :=
  ((lookupVal data key).map valModified).getD false

/-- The value under `key`, when present, is a table — true of every
well-formed manifest, whose `dependencies` and `dev-dependencies` sections
are mappings. -/
def isTableOrAbsent (data : Table) (key : String) : Bool :=
  ((lookupVal data key).map valIsTable).getD true

/-- A file as `process_file` observes it: the outcome of parsing its
content, and whether opening it for write-back would succeed. -/
abbrev FileEntry := ParseResult × Bool

/-- One unit of work of `main`'s loop: a path and the file behind it. -/
abbrev FileJob := String × FileEntry

/-- The `main` loop over a sequence of discovered manifest files: each is
handed to `process_file` in order; per-path outcomes are collected and the
console lines concatenated.  Total — no per-file outcome interrupts it. -/
def run_files : List FileJob → List (String × Option Table) × List String
  | [] => ([], [])
  | (path, pr, w) :: rest =>
      let r := process_file path pr w
      let rs := run_files rest
      ((path, r.1) :: rs.1, r.2 ++ rs.2)

/-- A directory in the model filesystem: its regular files (name paired
with the file's behavior) and its subdirectories. -/
inductive Dir where
  | node (files : List (String × FileEntry)) (subdirs : List (String × Dir))

/-- Top-down traversal of a directory tree, as `os.walk` yields it: for
each directory, its path together with the files it directly contains. -/
def walkDir (path : String) (d : Dir) : List (String × List (String × FileEntry)) :=
  match d with
  | .node files subdirs =>
      (path, files) ::
        (subdirs.attach.map
          (fun s =>
            match s with
            | ⟨(name, sub), _hmem⟩ => walkDir (path ++ "/" ++ name) sub)).flatten
termination_by sizeOf d
decreasing_by
  have h1 := List.sizeOf_lt_of_mem _hmem
  simp_wf
  simp at h1
  omega

/-- `os.walk("crates")`.  With the default `onerror=None`, enumeration
errors are ignored rather than raised: in particular a missing root
directory produces an empty iteration, not an exception (Python `os.walk`
documented behavior).  `none` models the absent root. -/
def os_walk : Option Dir → List (String × List (String × FileEntry))
  | none => []
  | some d => walkDir "crates" d

/-- The files `main` selects from the walk: in each directory, exactly the
files named `Cargo.toml`, addressed by `os.path.join(root, file)`. -/
def cargo_jobs (walk : List (String × List (String × FileEntry))) : List FileJob :=
  (walk.map (fun t =>
    (t.2.filter (fun f => f.1 = "Cargo.toml")).map
      (fun f => (t.1 ++ "/" ++ f.1, f.2)))).flatten

/-- `main()`: walk `crates/`, process every `Cargo.toml` found. -/
def main_run (root : Option Dir) : List (String × Option Table) × List String :=
  run_files (cargo_jobs (os_walk root))

/-- Scenario A input from the spec: one legacy dependency, one other. -/
def sampleLegacyTable : Table :=
  [("paws_fs", .str "1.0"), ("serde", .str "1.0")]

/-- Scenario B input from the spec: no legacy dependency. -/
def sampleCleanTable : Table :=
  [("serde", .str "1.0")]

/-- A manifest with a package section and a legacy dependency. -/
def sampleDoc : Table :=
  [("package", .table [("name", .str "demo")]),
   ("dependencies", .table sampleLegacyTable)]

/-- A manifest with no dependency tables at all. -/
def sampleNoDepsDoc : Table :=
  [("package", .table [("name", .str "demo")])]

/-! ### Dictionary lemmas -/

theorem lookupVal_cons (a : String) (v : Value) (rest : Table) (k : String) :
    lookupVal ((a, v) :: rest) k = if a = k then some v else lookupVal rest k := rfl

theorem lookupVal_dictDel (d : Table) (k k' : String) :
    lookupVal (dictDel d k) k' = if k' = k then none else lookupVal d k' := by
  induction d with
  | nil => simp [dictDel, lookupVal]
  | cons p rest ih =>
      obtain ⟨a, v⟩ := p
      by_cases hak : a = k
      · subst hak
        rw [show dictDel ((a, v) :: rest) a = dictDel rest a by simp [dictDel], ih,
          lookupVal_cons]
        by_cases h1 : k' = a
        · simp [h1]
        · have h1' : ¬a = k' := fun h => h1 h.symm
          simp [h1, h1']
      · rw [show dictDel ((a, v) :: rest) k = (a, v) :: dictDel rest k by simp [dictDel, hak],
          lookupVal_cons, ih, lookupVal_cons]
        by_cases h2 : a = k'
        · have h3 : ¬k' = k := fun h => hak (h2.trans h)
          simp [h2, h3]
        · by_cases h3 : k' = k <;> simp [h2, h3, hak]

theorem lookupVal_dictSet (d : Table) (k k' : String) (v : Value) :
    lookupVal (dictSet d k v) k' = if k' = k then some v else lookupVal d k' := by
  induction d with
  | nil =>
      rw [show dictSet [] k v = [(k, v)] from rfl, lookupVal_cons]
      by_cases h1 : k = k'
      · simp [h1]
      · have h1' : ¬k' = k := fun h => h1 h.symm
        simp [lookupVal, h1, h1']
  | cons p rest ih =>
      obtain ⟨a, w⟩ := p
      by_cases hak : a = k
      · subst hak
        rw [show dictSet ((a, w) :: rest) a v = (a, v) :: rest by simp [dictSet],
          lookupVal_cons, lookupVal_cons]
        by_cases h1 : a = k'
        · subst h1
          simp
        · have h1' : ¬k' = a := fun h => h1 h.symm
          simp [h1, h1']
      · rw [show dictSet ((a, w) :: rest) k v = (a, w) :: dictSet rest k v by
            simp [dictSet, hak],
          lookupVal_cons, ih, lookupVal_cons]
        by_cases h2 : a = k'
        · have h3 : ¬k' = k := fun h => hak (h2.trans h)
          simp [h2, h3]
        · by_cases h3 : k' = k <;> simp [h2, h3, hak]

theorem lookupVal_foldl_dictDel (l : List String) (d : Table) (k : String) :
    lookupVal (l.foldl dictDel d) k = if k ∈ l then none else lookupVal d k := by
  induction l generalizing d with
  | nil => simp
  | cons a l ih =>
      by_cases hka : k = a
      · subst hka
        simp [ih, lookupVal_dictDel]
      · by_cases hkl : k ∈ l <;> simp [ih, hkl, hka, lookupVal_dictDel]

theorem hasKey_iff_mem_keys (d : Table) (k : String) :
    hasKey d k = true ↔ k ∈ d.map Prod.fst := by
  induction d with
  | nil => simp [hasKey, lookupVal]
  | cons p rest ih =>
      obtain ⟨a, v⟩ := p
      by_cases hak : a = k
      · subst hak
        simp [hasKey, lookupVal_cons]
      · have h1 : hasKey ((a, v) :: rest) k = hasKey rest k := by
          simp [hasKey, lookupVal_cons, hak]
        rw [h1, List.map_cons, List.mem_cons, ih]
        exact (or_iff_right (fun h : k = a => hak h.symm)).symm

/-! ### Key multiplicity -/

theorem countKey_eq_zero (d : Table) (k : String) (h : hasKey d k = false) :
    countKey d k = 0 := by
  induction d with
  | nil => rfl
  | cons p rest ih =>
      obtain ⟨a, v⟩ := p
      by_cases hak : a = k
      · rw [hasKey, lookupVal_cons, if_pos hak] at h
        simp at h
      · rw [hasKey, lookupVal_cons, if_neg hak] at h
        have h2 := ih h
        rw [countKey] at h2 ⊢
        simpa [List.filter_cons, hak] using h2

theorem countKey_eq_one (d : Table) (k : String) (hnd : keysNodup d)
    (h : hasKey d k = true) : countKey d k = 1 := by
  induction d with
  | nil => simp [hasKey, lookupVal] at h
  | cons p rest ih =>
      obtain ⟨a, v⟩ := p
      rw [keysNodup, List.map_cons, List.nodup_cons] at hnd
      by_cases hak : a = k
      · subst hak
        have hrest : hasKey rest a = false := by
          rcases hb : hasKey rest a
          · rfl
          · exact absurd ((hasKey_iff_mem_keys rest a).mp hb) hnd.1
        have h0 := countKey_eq_zero rest a hrest
        rw [countKey] at h0 ⊢
        simpa [List.filter_cons] using h0
      · rw [hasKey, lookupVal_cons, if_neg hak] at h
        have h2 := ih hnd.2 h
        rw [countKey] at h2 ⊢
        simpa [List.filter_cons, hak] using h2

/-! ### Nodup preservation -/

theorem keys_dictDel_sublist (d : Table) (k : String) :
    ((dictDel d k).map Prod.fst).Sublist (d.map Prod.fst) := by
  induction d with
  | nil => simp [dictDel]
  | cons p rest ih =>
      obtain ⟨a, v⟩ := p
      by_cases hak : a = k
      · rw [show dictDel ((a, v) :: rest) k = dictDel rest k by simp [dictDel, hak]]
        exact ih.cons a
      · rw [show dictDel ((a, v) :: rest) k = (a, v) :: dictDel rest k by
            simp [dictDel, hak]]
        exact ih.cons₂ a

theorem keysNodup_dictDel (d : Table) (k : String) (h : keysNodup d) :
    keysNodup (dictDel d k) :=
  h.sublist (keys_dictDel_sublist d k)

theorem keysNodup_foldl_dictDel (l : List String) (d : Table) (h : keysNodup d) :
    keysNodup (l.foldl dictDel d) := by
  induction l generalizing d with
  | nil => exact h
  | cons a l ih => exact ih (dictDel d a) (keysNodup_dictDel d a h)

theorem keys_dictSet (d : Table) (k : String) (v : Value) :
    (dictSet d k v).map Prod.fst =
      if hasKey d k then d.map Prod.fst else d.map Prod.fst ++ [k] := by
  induction d with
  | nil => simp [dictSet, hasKey, lookupVal]
  | cons p rest ih =>
      obtain ⟨a, w⟩ := p
      by_cases hak : a = k
      · subst hak
        simp [dictSet, hasKey, lookupVal_cons]
      · rw [show dictSet ((a, w) :: rest) k v = (a, w) :: dictSet rest k v by
            simp [dictSet, hak]]
        have hk : hasKey ((a, w) :: rest) k = hasKey rest k := by
          simp [hasKey, lookupVal_cons, hak]
        rw [List.map_cons, ih, hk]
        by_cases h2 : hasKey rest k <;> simp [h2]

theorem keysNodup_dictSet (d : Table) (k : String) (v : Value) (h : keysNodup d) :
    keysNodup (dictSet d k v) := by
  rw [keysNodup, keys_dictSet]
  by_cases h2 : hasKey d k
  · simpa [h2] using h
  · have hk : k ∉ d.map Prod.fst := fun hm => by
      rw [(hasKey_iff_mem_keys d k).mpr hm] at h2
      exact h2 rfl
    have h' : (d.map Prod.fst).Nodup := h
    simp [h2, List.nodup_append, h', hk]
/-! ### Structure of `update_deps` -/

theorem hasKey_false_iff (d : Table) (k : String) :
    hasKey d k = false ↔ lookupVal d k = none := by
  rw [hasKey]
  cases lookupVal d k <;> simp

theorem mem_legacyKeys (d : Table) (k : String) :
    k ∈ legacyKeys d ↔ k ∈ MERGED_CRATES ∧ hasKey d k = true := by
  simp [legacyKeys, List.mem_filter]

theorem update_deps_of_no_legacy (d : Table) (h : legacyKeys d = []) :
    update_deps d = (d, false) := by
  simp [update_deps, h]

theorem update_deps_of_modified (d : Table) (h : legacyKeys d ≠ []) :
    update_deps d =
      (dictSet ((legacyKeys d).foldl dictDel d) "paws_common" replacementEntry, true) := by
  have hne : d.isEmpty = false := by
    cases d
    · exact absurd rfl h
    · rfl
  simp [update_deps, hne, h, List.isEmpty_iff]

theorem update_deps_hasKey_legacy (d : Table) (k : String) (hk : k ∈ MERGED_CRATES) :
    hasKey (update_deps d).1 k = false := by
  by_cases hmod : legacyKeys d = []
  · rw [update_deps_of_no_legacy d hmod]
    rcases hb : hasKey d k
    · rfl
    · have hm : k ∈ legacyKeys d := (mem_legacyKeys d k).mpr ⟨hk, hb⟩
      rw [hmod] at hm
      simp at hm
  · rw [update_deps_of_modified d hmod]
    have hkpc : k ≠ "paws_common" := by
      intro hcon
      subst hcon
      revert hk
      decide
    rw [hasKey, lookupVal_dictSet, if_neg hkpc, lookupVal_foldl_dictDel]
    by_cases hmem : k ∈ legacyKeys d
    · simp [hmem]
    · simp only [hmem, if_neg]
      rcases hb : hasKey d k
      · simp [(hasKey_false_iff d k).mp hb]
      · exact absurd ((mem_legacyKeys d k).mpr ⟨hk, hb⟩) hmem

theorem update_deps_lookup_other (d : Table) (k : String) (h1 : k ∉ MERGED_CRATES)
    (h2 : k ≠ "paws_common") : lookupVal (update_deps d).1 k = lookupVal d k := by
  by_cases hmod : legacyKeys d = []
  · rw [update_deps_of_no_legacy d hmod]
  · rw [update_deps_of_modified d hmod, lookupVal_dictSet, if_neg h2,
      lookupVal_foldl_dictDel, if_neg (fun hm => h1 ((mem_legacyKeys d k).mp hm).1)]

theorem update_deps_snd_true_iff (d : Table) :
    (update_deps d).2 = true ↔ legacyKeys d ≠ [] := by
  by_cases hmod : legacyKeys d = []
  · rw [update_deps_of_no_legacy d hmod]
    simp [hmod]
  · rw [update_deps_of_modified d hmod]
    simp [hmod]

theorem update_deps_lookup_paws_common (d : Table) (h : legacyKeys d ≠ []) :
    lookupVal (update_deps d).1 "paws_common" = some replacementEntry := by
  rw [update_deps_of_modified d h, lookupVal_dictSet, if_pos rfl]

theorem keysNodup_update_deps (d : Table) (h : keysNodup d) :
    keysNodup (update_deps d).1 := by
  by_cases hmod : legacyKeys d = []
  · rw [update_deps_of_no_legacy d hmod]
    exact h
  · rw [update_deps_of_modified d hmod]
    exact keysNodup_dictSet _ _ _ (keysNodup_foldl_dictDel _ _ h)

theorem legacyKeys_eq_nil_iff (d : Table) :
    legacyKeys d = [] ↔ ∀ k ∈ MERGED_CRATES, hasKey d k = false := by
  constructor
  · intro h k hk
    rcases hb : hasKey d k
    · rfl
    · have hm : k ∈ legacyKeys d := (mem_legacyKeys d k).mpr ⟨hk, hb⟩
      rw [h] at hm
      simp at hm
  · intro h
    rcases hl : legacyKeys d with _ | ⟨a, l⟩
    · rfl
    · have hm : a ∈ legacyKeys d := by rw [hl]; exact List.mem_cons_self a l
      rw [mem_legacyKeys] at hm
      rw [h a hm.1] at hm
      simp at hm

/-! ### Structure of `process_file` -/

theorem applyDeps_eq_of_wf (data : Table) (key : String)
    (h : isTableOrAbsent data key = true) :
    applyDeps data key = .ok (rewriteStep data key) (tableModified data key) := by
  rcases hl : lookupVal data key with _ | v
  · simp [applyDeps, rewriteStep, tableModified, hl]
  · cases v with
    | table t => simp [applyDeps, rewriteStep, tableModified, valModified, hl]
    | str s => simp [isTableOrAbsent, valIsTable, hl] at h
    | int n => simp [isTableOrAbsent, valIsTable, hl] at h
    | bool b => simp [isTableOrAbsent, valIsTable, hl] at h
    | arr l => simp [isTableOrAbsent, valIsTable, hl] at h

theorem lookupVal_rewriteStep_other (data : Table) (key k : String) (hne : k ≠ key) :
    lookupVal (rewriteStep data key) k = lookupVal data k := by
  rw [rewriteStep]
  rcases hl : lookupVal data key with _ | v
  · rfl
  · cases v <;> first | rfl | rw [lookupVal_dictSet, if_neg hne]

theorem applyDeps_lookup_other (data : Table) (key k : String) (hne : k ≠ key)
    (d2 : Table) (m : Bool) (h : applyDeps data key = .ok d2 m) :
    lookupVal d2 k = lookupVal data k := by
  rcases hl : lookupVal data key with _ | v
  · simp [applyDeps, hl] at h
    rw [← h.1]
  · cases v <;> simp [applyDeps, hl] at h
    rw [← h.1, lookupVal_dictSet, if_neg hne]

theorem process_file_body_eq (path : String) (data : Table) (w : Bool)
    (h1 : isTableOrAbsent data "dependencies" = true)
    (h2 : isTableOrAbsent data "dev-dependencies" = true) :
    process_file_body path (.ok data) w =
      if tableModified data "dependencies" || tableModified data "dev-dependencies" then
        if w then (.ok (some (rewriteDoc data)), [updLine path])
        else (.error "write failed", [updLine path])
      else (.ok none, []) := by
  have hne : ("dev-dependencies" : String) ≠ "dependencies" := by decide
  have hlook := lookupVal_rewriteStep_other data "dependencies" "dev-dependencies" hne
  have h2' : isTableOrAbsent (rewriteStep data "dependencies") "dev-dependencies" = true := by
    simp only [isTableOrAbsent, hlook]
    simp only [isTableOrAbsent] at h2
    exact h2
  have hm2 : tableModified (rewriteStep data "dependencies") "dev-dependencies"
      = tableModified data "dev-dependencies" := by
    simp only [tableModified, hlook]
  have e1 := applyDeps_eq_of_wf data "dependencies" h1
  have e2 := applyDeps_eq_of_wf (rewriteStep data "dependencies") "dev-dependencies" h2'
  rw [hm2] at e2
  simp only [process_file_body, e1, e2, rewriteDoc]

theorem process_file_eq (path : String) (data : Table) (w : Bool)
    (h1 : isTableOrAbsent data "dependencies" = true)
    (h2 : isTableOrAbsent data "dev-dependencies" = true) :
    process_file path (.ok data) w =
      if tableModified data "dependencies" || tableModified data "dev-dependencies" then
        if w then (some (rewriteDoc data), [updLine path])
        else (none, [updLine path, errLine path "write failed"])
      else (none, []) := by
  rw [process_file, process_file_body_eq path data w h1 h2]
  cases tableModified data "dependencies" || tableModified data "dev-dependencies" <;>
    cases w <;> rfl

theorem process_file_some_inv (path : String) (data : Table) (w : Bool) (d2 : Table)
    (h : (process_file path (.ok data) w).1 = some d2) :
    ∃ d1 m1 m2, applyDeps data "dependencies" = .ok d1 m1 ∧
      applyDeps d1 "dev-dependencies" = .ok d2 m2 := by
  rcases e1 : applyDeps data "dependencies" with ⟨d1, m1⟩ | e
  · rcases e2 : applyDeps d1 "dev-dependencies" with ⟨dd, m2⟩ | e
    · have hdd : dd = d2 := by
        simp only [process_file, process_file_body, e1, e2] at h
        cases hm : m1 || m2 <;> rw [hm] at h <;> cases w <;> (simp at h; try exact h)
      subst hdd
      exact ⟨d1, m1, m2, rfl, e2⟩
    · simp only [process_file, process_file_body, e1, e2] at h
      simp at h
  · simp only [process_file, process_file_body, e1] at h
    simp at h

theorem run_files_length (jobs : List FileJob) :
    (run_files jobs).1.length = jobs.length := by
  induction jobs with
  | nil => rfl
  | cons j rest ih =>
      rcases j with ⟨p, pr, w⟩
      simp [run_files, ih]

/-! ### Claims -/

/-- C1: for every dependency table (with the distinct keys every parsed
TOML table has) containing at least one key from the Legacy Package Set,
after `update_deps` runs on it no legacy key remains, the table holds
exactly one `paws_common` entry whose value is the fixed replacement
`{"workspace": true}` (overwriting wholesale any pre-existing entry), and
`update_deps` returns true. -/
theorem update_deps_rewrites_legacy_table (d : Table) (hnd : keysNodup d)
    (hleg : ∃ k ∈ MERGED_CRATES, hasKey d k = true) :
    (∀ k ∈ MERGED_CRATES, hasKey (update_deps d).1 k = false) ∧
      countKey (update_deps d).1 "paws_common" = 1 ∧
      lookupVal (update_deps d).1 "paws_common" = some replacementEntry ∧
      (update_deps d).2 = true := by
  have hmod : legacyKeys d ≠ [] := by
    rcases hleg with ⟨k, hk, hh⟩
    intro hnil
    have hm := (mem_legacyKeys d k).mpr ⟨hk, hh⟩
    rw [hnil] at hm
    simp at hm
  refine ⟨fun k hk => update_deps_hasKey_legacy d k hk, ?_,
    update_deps_lookup_paws_common d hmod, (update_deps_snd_true_iff d).mpr hmod⟩
  refine countKey_eq_one _ _ (keysNodup_update_deps d hnd) ?_
  rw [hasKey, update_deps_lookup_paws_common d hmod]
  rfl

/-- Witness for C1 at Scenario A's table `{"paws_fs": "1.0", "serde": "1.0"}`. -/
theorem update_deps_rewrites_legacy_table_witness :
    keysNodup sampleLegacyTable ∧
      (∃ k ∈ MERGED_CRATES, hasKey sampleLegacyTable k = true) ∧
      ((∀ k ∈ MERGED_CRATES, hasKey (update_deps sampleLegacyTable).1 k = false) ∧
        countKey (update_deps sampleLegacyTable).1 "paws_common" = 1 ∧
        lookupVal (update_deps sampleLegacyTable).1 "paws_common" = some replacementEntry ∧
        (update_deps sampleLegacyTable).2 = true) :=
  ⟨by unfold keysNodup; decide, by decide,
    update_deps_rewrites_legacy_table sampleLegacyTable
      (by unfold keysNodup; decide) (by decide)⟩

/-- C2: for every dependency table with no key from the Legacy Package Set
— the empty table and the absent (`None`) mapping included — `update_deps`
returns false and leaves the table completely unchanged. -/
theorem update_deps_no_legacy_noop (od : Option Table)
    (h : ∀ d ∈ od, ∀ k ∈ MERGED_CRATES, hasKey d k = false) :
    update_deps_opt od = (od, false) := by
  cases od with
  | none => rfl
  | some d =>
      have hnil := (legacyKeys_eq_nil_iff d).mpr (h d rfl)
      simp [update_deps_opt, update_deps_of_no_legacy d hnil]

/-- Witness for C2 at Scenario B's table `{"serde": "1.0"}`. -/
theorem update_deps_no_legacy_noop_witness :
    (∀ d ∈ some sampleCleanTable, ∀ k ∈ MERGED_CRATES, hasKey d k = false) ∧
      update_deps_opt (some sampleCleanTable) = (some sampleCleanTable, false) := by
  have h : ∀ d ∈ some sampleCleanTable, ∀ k ∈ MERGED_CRATES, hasKey d k = false := by
    intro d hd
    rw [Option.mem_def, Option.some.injEq] at hd
    subst hd
    decide
  exact ⟨h, update_deps_no_legacy_noop (some sampleCleanTable) h⟩

/-- C3: `update_deps` is idempotent — a second application to the result of
a first application changes nothing and returns false. -/
theorem update_deps_idempotent (d : Table) :
    update_deps (update_deps d).1 = ((update_deps d).1, false) := by
  apply update_deps_of_no_legacy
  rw [legacyKeys_eq_nil_iff]
  exact fun k hk => update_deps_hasKey_legacy d k hk

/-- C4: with the write succeeding, `process_file` writes the manifest back
iff one of the `dependencies` / `dev-dependencies` tables was modified;
with neither modified (in particular with neither table present, or no
legacy keys in them) nothing is written, for any write outcome, and no
notice is printed. -/
theorem process_file_writes_iff_modified (path : String) (data : Table)
    (h1 : isTableOrAbsent data "dependencies" = true)
    (h2 : isTableOrAbsent data "dev-dependencies" = true) :
    ((process_file path (.ok data) true).1.isSome
        = (tableModified data "dependencies" || tableModified data "dev-dependencies"))
      ∧ (∀ w, (tableModified data "dependencies" || tableModified data "dev-dependencies")
            = false →
          process_file path (.ok data) w = (none, [])) := by
  constructor
  · rw [process_file_eq path data true h1 h2]
    cases tableModified data "dependencies" || tableModified data "dev-dependencies" <;> simp
  · intro w hM
    rw [process_file_eq path data w h1 h2, hM]
    simp

/-- Witness for C4 at a manifest with no dependency tables. -/
theorem process_file_writes_iff_modified_witness :
    isTableOrAbsent sampleNoDepsDoc "dependencies" = true ∧
      isTableOrAbsent sampleNoDepsDoc "dev-dependencies" = true ∧
      (((process_file "crates/a/Cargo.toml" (.ok sampleNoDepsDoc) true).1.isSome
          = (tableModified sampleNoDepsDoc "dependencies"
              || tableModified sampleNoDepsDoc "dev-dependencies"))
        ∧ (∀ w, (tableModified sampleNoDepsDoc "dependencies"
              || tableModified sampleNoDepsDoc "dev-dependencies") = false →
            process_file "crates/a/Cargo.toml" (.ok sampleNoDepsDoc) w = (none, []))) :=
  ⟨by decide, by decide,
    process_file_writes_iff_modified "crates/a/Cargo.toml" sampleNoDepsDoc
      (by decide) (by decide)⟩

/-- C5: a manifest that fails to parse is caught inside `process_file`,
which emits the error line naming the path and the error detail and raises
nothing; in a traversal, every other file is still processed exactly as it
would be on its own, before and after the failing one. -/
theorem per_file_errors_isolated (pre : List FileJob) (p e : String) (w : Bool)
    (post : List FileJob) :
    process_file p (.err e) w = (none, [errLine p e]) ∧
      run_files (pre ++ (p, ParseResult.err e, w) :: post) =
        ((run_files pre).1 ++ (p, none) :: (run_files post).1,
         (run_files pre).2 ++ errLine p e :: (run_files post).2) := by
  refine ⟨rfl, ?_⟩
  induction pre with
  | nil => simp [run_files, process_file, process_file_body]
  | cons j rest ih =>
      rcases j with ⟨q, pr, wq⟩
      simp [run_files, ih]

/-- C6 counterexample: a manifest whose table is modified but whose
write-back fails still gets the `Updating` notice (it is printed before the
write), while the on-disk content is unchanged — refuting "the notice is
emitted only if the file was actually changed on disk". -/
theorem updating_notice_despite_failed_write :
    process_file "crates/demo/Cargo.toml"
        (ParseResult.ok [("dependencies", Value.table [("paws_fs", Value.str "1.0")])])
        false
      = (none, [updLine "crates/demo/Cargo.toml",
          errLine "crates/demo/Cargo.toml" "write failed"]) := by
  rfl

/-- C6 (amended): for a manifest that parses with well-formed dependency
tables, the `Updating` notice is emitted iff one of the two tables was
modified; the notice precedes the write-back, so it appears even when the
write-back then fails. -/
theorem updating_notice_iff_modified (path : String) (data : Table) (w : Bool)
    (h1 : isTableOrAbsent data "dependencies" = true)
    (h2 : isTableOrAbsent data "dev-dependencies" = true) :
    (process_file path (.ok data) w).2.head? = some (updLine path)
      ↔ (tableModified data "dependencies" || tableModified data "dev-dependencies")
          = true := by
  rw [process_file_eq path data w h1 h2]
  cases tableModified data "dependencies" || tableModified data "dev-dependencies" <;>
    cases w <;> simp

/-- Witness for the amended C6 at Scenario A's manifest with a failing
write-back. -/
theorem updating_notice_iff_modified_witness :
    isTableOrAbsent sampleDoc "dependencies" = true ∧
      isTableOrAbsent sampleDoc "dev-dependencies" = true ∧
      ((process_file "crates/demo/Cargo.toml" (.ok sampleDoc) false).2.head?
          = some (updLine "crates/demo/Cargo.toml")
        ↔ (tableModified sampleDoc "dependencies"
            || tableModified sampleDoc "dev-dependencies") = true) :=
  ⟨by decide, by decide,
    updating_notice_iff_modified "crates/demo/Cargo.toml" sampleDoc false
      (by decide) (by decide)⟩

/-- C7 counterexample: with the root directory `crates` missing, `os.walk`
(default `onerror=None`) yields an empty iteration and `main` completes
normally with no output — the enumeration error does not propagate or
terminate the process, refuting the claim. -/
theorem main_run_missing_root_completes : main_run none = ([], []) := by
  rfl

/-- C7 (amended): errors during directory enumeration are ignored by
`os.walk`'s default behavior; a missing `crates` root yields an empty
traversal and a normal, outputless completion, and in every run each
discovered manifest is processed — no class of error aborts the run. -/
theorem enumeration_errors_not_fatal :
    main_run none = ([], []) ∧
      ∀ root : Option Dir, (main_run root).1.length = (cargo_jobs (os_walk root)).length := by
  exact ⟨rfl, fun root => run_files_length (cargo_jobs (os_walk root))⟩

/-- C8: `process_file` rewrites only the top-level `dependencies` and
`dev-dependencies` tables: whenever it writes a document back, every other
top-level key — platform/target-conditional tables included — still maps to
exactly its parsed value. -/
theorem process_file_frame (path : String) (data : Table) (w : Bool) (k : String)
    (d2 : Table) (hk1 : k ≠ "dependencies") (hk2 : k ≠ "dev-dependencies")
    (hd2 : (process_file path (.ok data) w).1 = some d2) :
    lookupVal d2 k = lookupVal data k := by
  rcases process_file_some_inv path data w d2 hd2 with ⟨d1, m1, m2, e1, e2⟩
  rw [applyDeps_lookup_other d1 "dev-dependencies" k hk2 d2 m2 e2,
    applyDeps_lookup_other data "dependencies" k hk1 d1 m1 e1]

/-- Witness for C8: the `package` section survives the rewrite of
`sampleDoc` unchanged. -/
theorem process_file_frame_witness :
    ("package" : String) ≠ "dependencies" ∧
      ("package" : String) ≠ "dev-dependencies" ∧
      (process_file "crates/demo/Cargo.toml" (.ok sampleDoc) true).1
        = some (rewriteDoc sampleDoc) ∧
      lookupVal (rewriteDoc sampleDoc) "package" = lookupVal sampleDoc "package" :=
  ⟨by decide, by decide, by rfl,
    process_file_frame "crates/demo/Cargo.toml" sampleDoc true "package"
      (rewriteDoc sampleDoc) (by decide) (by decide) (by rfl)⟩

/-- C9: entries whose key is neither legacy nor `paws_common` keep exactly
their value across `update_deps`, modified table or not. -/
theorem update_deps_preserves_other_entries (d : Table) (k : String)
    (h1 : k ∉ MERGED_CRATES) (h2 : k ≠ "paws_common") :
    lookupVal (update_deps d).1 k = lookupVal d k :=
  update_deps_lookup_other d k h1 h2

/-- Witness for C9: `serde` keeps its value in Scenario A's table. -/
theorem update_deps_preserves_other_entries_witness :
    ("serde" : String) ∉ MERGED_CRATES ∧ ("serde" : String) ≠ "paws_common" ∧
      lookupVal (update_deps sampleLegacyTable).1 "serde"
        = lookupVal sampleLegacyTable "serde" :=
  ⟨by decide, by decide,
    update_deps_preserves_other_entries sampleLegacyTable "serde" (by decide) (by decide)⟩

/-- C10: the consolidated name `paws_common` is not a member of
`MERGED_CRATES`, so whenever `update_deps` reports a modification the
`paws_common` entry it inserted is still present. -/
theorem paws_common_not_legacy :
    "paws_common" ∉ MERGED_CRATES ∧
      ∀ d : Table, (update_deps d).2 = true →
        hasKey (update_deps d).1 "paws_common" = true := by
  refine ⟨by decide, fun d h => ?_⟩
  rw [hasKey, update_deps_lookup_paws_common d ((update_deps_snd_true_iff d).mp h)]
  rfl

/-- Witness for C10 at Scenario A's table. -/
theorem paws_common_not_legacy_witness :
    "paws_common" ∉ MERGED_CRATES ∧
      hasKey (update_deps sampleLegacyTable).1 "paws_common" = true :=
  ⟨paws_common_not_legacy.1,
    paws_common_not_legacy.2 sampleLegacyTable (by decide)⟩

end UpdateCargoToml
